import Mathlib

/-
Verification development for the wiki client-side search module
(src/wiki-netlify/dist/static/js/search.js).  The file contains two
variants of the module separated by a document marker: a readable variant
(lines 1-209) and a minified variant (lines 210-238).

Modelling conventions:
- JavaScript strings are modelled as `List Char`.
- `toLowerCase` is modelled on the ASCII range by `Char.toLower`
  (full Unicode case mapping is out of scope for the claims).
- Code that can raise an exception is modelled with `JsResult`.
- The module's single mutable variable `searchIndex` is modelled as an
  explicit `Option (List IndexEntry)` argument (`none` models `null`;
  the loader only ever stores a parsed JSON array, which is truthy in
  JavaScript even when empty).
-/

/-- Convenience: the character list of a string literal. -/
def str (s : String) : List Char := s.toList

/-- Characters matched by the ECMAScript `\s` class (and removed by
`String.prototype.trim`): tab, LF, VT, FF, CR, space, NBSP, Ogham space,
the U+2000..U+200A spaces, LS, PS, NNBSP, MMSP, ideographic space, BOM. -/
def jsIsWs (c : Char) : Bool :=
  [9, 10, 11, 12, 13, 32, 160, 0x1680, 0x2028, 0x2029,
   0x202f, 0x205f, 0x3000, 0xfeff].contains c.toNat
  || (0x2000 ≤ c.toNat && c.toNat ≤ 0x200a)

/-- Models `String.prototype.toLowerCase` (ASCII range). -/
def jsToLower (s : List Char) : List Char := s.map Char.toLower

/-- Models `String.prototype.trim`: removes leading and trailing
whitespace. -/
def jsTrim (s : List Char) : List Char :=
  ((s.dropWhile jsIsWs).reverse.dropWhile jsIsWs).reverse

/-- Helper for `splitTerms`: `cur` holds the characters of the current
term in reverse order. -/
def splitTermsAux (cur : List Char) : List Char → List (List Char)
  | [] => if cur = [] then [] else [cur.reverse]
  | c :: cs =>
    if jsIsWs c then
      if cur = [] then splitTermsAux [] cs else cur.reverse :: splitTermsAux [] cs
    else splitTermsAux (c :: cur) cs

/-- Models `s.split(/\s+/).filter(term => term.length > 0)`: the list of
maximal nonempty runs of non-whitespace characters.  (The raw split can
produce one leading empty segment; the length filter in the module
removes every empty segment, so the composition is exactly this.) -/
def splitTerms (s : List Char) : List (List Char) := splitTermsAux [] s

/-- Models `hay.includes(needle)` on strings. -/
def jsIncludes (needle : List Char) : List Char → Bool
  | [] => needle.isEmpty
  | c :: cs => List.isPrefixOf needle (c :: cs) || jsIncludes needle cs

/-- The characters escaped by `escapeRegex` (the ECMAScript regex
metacharacters, from the class in line 36 of the readable variant). -/
def regexMeta : List Char :=
  ['.', '*', '+', '?', '^', '$', '\x7b', '\x7d', '(', ')', '|', '[', ']', '\\']

/-- Models `escapeRegex` (line 35-37): prefixes every regex
metacharacter with a backslash. -/
def escapeRegex (s : List Char) : List Char :=
  s.foldr (fun c acc => (if regexMeta.contains c then ['\\', c] else [c]) ++ acc) []

/-- One token of the modelled regular-expression fragment: a literal
character or the `.` wildcard. -/
inductive RTok
  | lit (c : Char)
  | dot
deriving DecidableEq

/-- Models ECMAScript regex compilation (`new RegExp(pattern)`) on the
fragment reachable from this module: literal characters, the `.`
wildcard, and backslash-escaped metacharacters (exactly what
`escapeRegex` emits).  Every other use of a metacharacter is modelled as
a compile error; in particular an unmatched `(` -- as in the pattern
`((` -- is a SyntaxError in ECMAScript, and the model agrees on that
input.  The model is conservative: some patterns it rejects (such as
quantified atoms) compile in ECMAScript, but no claim depends on those. -/
def jsRegexParse : List Char → Option (List RTok)
  | [] => some []
  | c :: rest =>
    if c = '.' then (jsRegexParse rest).map (fun p => RTok.dot :: p)
    else if c = '\\' then
      match rest with
      | [] => none
      | d :: rest2 =>
        if regexMeta.contains d then (jsRegexParse rest2).map (fun p => RTok.lit d :: p)
        else none
    else if regexMeta.contains c then none
    else (jsRegexParse rest).map (fun p => RTok.lit c :: p)

/-- The ECMAScript line terminators, which `.` does not match (the
module never passes the `s` flag). -/
def lineTerminators : List Char := ['\n', '\r', '\u2028', '\u2029']

/-- Whether one regex token matches one character (case-sensitive; the
content-scoring regex in line 64 has only the `g` flag). -/
def rtokMatch : RTok → Char → Bool
  | RTok.lit c, d => c == d
  | RTok.dot, d => !(lineTerminators.contains d)

/-- Whether the token list matches a prefix of the character list. -/
def matchesAt : List RTok → List Char → Bool
  | [], _ => true
  | _ :: _, [] => false
  | t :: ts, c :: cs => rtokMatch t c && matchesAt ts cs

/-- Helper for `countRegexMatches`: `skip` is the number of characters
still to pass over because they belong to the match just counted (the
scan of a global regex resumes after the end of each match). -/
def countRegexMatchesAux (p : List RTok) : Nat → List Char → Nat
  | skip, [] => if skip == 0 && matchesAt p [] then 1 else 0
  | 0, c :: cs =>
    if matchesAt p (c :: cs) then 1 + countRegexMatchesAux p (p.length - 1) cs
    else countRegexMatchesAux p 0 cs
  | skip + 1, _ :: cs => countRegexMatchesAux p skip cs

/-- Models `(s.match(regex) || []).length` for a global regex: the
number of matches found by the left-to-right scan that resumes after the
end of each match. -/
def countRegexMatches (p : List RTok) (s : List Char) : Nat :=
  countRegexMatchesAux p 0 s

/-- Count of non-overlapping case-insensitive occurrences of `t` as a
literal substring, written from the spec's words ("the count of
non-overlapping case-insensitive substring occurrences of the term
within the lowercased content"); both arguments are expected already
lowercased.  Declared for comparison with what the code computes. -/
def countOccurrencesLitAux (t : List Char) : Nat → List Char → Nat
  | _, [] => 0
  | 0, c :: cs =>
    if !t.isEmpty && List.isPrefixOf t (c :: cs) then
      1 + countOccurrencesLitAux t (t.length - 1) cs
    else countOccurrencesLitAux t 0 cs
  | skip + 1, _ :: cs => countOccurrencesLitAux t skip cs

/-- The literal counter, scanning from the start of the string. -/
def countOccurrencesLit (t s : List Char) : Nat := countOccurrencesLitAux t 0 s

/-- One page record of the search index (§3 of the spec; the JSON
objects in `search-index.json`). -/
structure IndexEntry where
  title : List Char
  content : List Char
  url : List Char
  category : List Char
deriving DecidableEq

/-- An index entry together with its score, as produced by the spread
`... item` plus `score` in line 68. -/
structure ScoredResult where
  title : List Char
  content : List Char
  url : List Char
  category : List Char
  score : Nat
deriving DecidableEq

/-- Result of a JavaScript computation that can throw: either a value
or a raised exception. -/
inductive JsResult (α : Type)
  | thrown
  | ok (val : α)
deriving DecidableEq

/-- Models the object spread in line 68: a fresh result object copying
every field of the entry and adding the score. -/
def toScored (item : IndexEntry) (score : Nat) : ScoredResult :=
  ⟨item.title, item.content, item.url, item.category, score⟩

/-- One iteration of the per-term loop in lines 54-66: title substring
+10, exact title match a further +20, then the count of global-regex
matches of the raw (unescaped) term in the lowercased content.  Compiling
the term as a regex can throw. -/
def termScore (titleLower contentLower term : List Char) (score : Nat) : JsResult Nat :=
  let s1 :=
    if jsIncludes term titleLower then
      if titleLower = term then score + 10 + 20 else score + 10
    else score
  match jsRegexParse term with
  | none => JsResult.thrown
  | some p => JsResult.ok (s1 + countRegexMatches p contentLower)

/-- The per-term loop of lines 54-66, folded over the term list. -/
def scoreTermsFold (titleLower contentLower : List Char) : Nat → List (List Char) → JsResult Nat
  | score, [] => JsResult.ok score
  | score, t :: ts =>
    match termScore titleLower contentLower t score with
    | JsResult.thrown => JsResult.thrown
    | JsResult.ok s2 => scoreTermsFold titleLower contentLower s2 ts

/-- The body of the `map` callback in lines 49-69: lowercase the title
and content, accumulate the score over all terms, and build the scored
copy of the entry. -/
def scoreEntry (terms : List (List Char)) (item : IndexEntry) : JsResult ScoredResult :=
  match scoreTermsFold (jsToLower item.title) (jsToLower item.content) 0 terms with
  | JsResult.thrown => JsResult.thrown
  | JsResult.ok s => JsResult.ok (toScored item s)

/-- Models `Array.prototype.map` with a callback that can throw: the
callback runs left to right and the first exception aborts the whole
call. -/
def mapJs (f : α → JsResult β) : List α → JsResult (List β)
  | [] => JsResult.ok []
  | a :: as =>
    match f a with
    | JsResult.thrown => JsResult.thrown
    | JsResult.ok b =>
      match mapJs f as with
      | JsResult.thrown => JsResult.thrown
      | JsResult.ok bs => JsResult.ok (b :: bs)

/-- Insert an element into a sorted list, before the first element it
compares less-or-equal to (so an element inserted later never moves in
front of an equivalent element: stability). -/
def insertSorted (le : α → α → Bool) (a : α) : List α → List α
  | [] => [a]
  | b :: bs => if le a b then a :: b :: bs else b :: insertSorted le a bs

/-- Stable insertion sort.  ECMAScript requires `Array.prototype.sort`
to be stable, and for a total transitive comparison a stable sorted
permutation is unique, so this computes exactly the list the engine's
sort produces for the comparator below. -/
def stableSort (le : α → α → Bool) : List α → List α
  | [] => []
  | a :: as => insertSorted le a (stableSort le as)

/-- The comparator of line 71, `(a, b) => b.score - a.score`, as the
ordering it induces: `a` may precede `b` exactly when the comparator is
nonpositive, i.e. when `b.score ≤ a.score` (descending by score). -/
def scoreLe (a b : ScoredResult) : Bool := decide (b.score ≤ a.score)

/-- Models `search(query, limit)` (lines 40-75 of the readable variant).
The module variable `searchIndex` is passed explicitly; the result is
`thrown` when the body raises (which happens when a term fails to
compile as a regex in line 64). -/
def search (searchIndex : Option (List IndexEntry)) (query : List Char) (limit : Nat) :
    JsResult (List ScoredResult) :=
  match searchIndex with
  | none => JsResult.ok []
  | some idx =>
    if query = [] ∨ (jsTrim query).length < 2 then JsResult.ok []
    else
      let queryLower := jsToLower query
      let terms := splitTerms queryLower
      match mapJs (scoreEntry terms) idx with
      | JsResult.thrown => JsResult.thrown
      | JsResult.ok results =>
        JsResult.ok
          ((stableSort scoreLe (results.filter (fun item => decide (0 < item.score)))).take limit)

/-- Models `search` of the minified variant (lines 213-215); its body is
the same pipeline as the readable variant. -/
def searchMin (searchIndex : Option (List IndexEntry)) (query : List Char) (limit : Nat) :
    JsResult (List ScoredResult) :=
  match searchIndex with
  | none => JsResult.ok []
  | some idx =>
    if query = [] ∨ (jsTrim query).length < 2 then JsResult.ok []
    else
      let queryLower := jsToLower query
      let terms := splitTerms queryLower
      match mapJs (scoreEntry terms) idx with
      | JsResult.thrown => JsResult.thrown
      | JsResult.ok results =>
        JsResult.ok
          ((stableSort scoreLe (results.filter (fun item => decide (0 < item.score)))).take limit)

/-- The search body never assigns the module variable, so as a state
transformer on the module state it returns the state unchanged together
with the value `search` computes. -/
def searchStateful (st : Option (List IndexEntry)) (query : List Char) (limit : Nat) :
    Option (List IndexEntry) × JsResult (List ScoredResult) :=
  (st, search st query limit)

/-- Outcome of the network fetch plus JSON parse in lines 11-12: either
a parsed array of entries or a failure (network error or parse error). -/
inductive FetchOutcome
  | ok (entries : List IndexEntry)
  | fail
deriving DecidableEq

/-- What one call of `loadSearchIndex` produces: the module state after
the call, the value the returned promise resolves to, and whether the
call issued a network request. -/
structure LoadResult where
  cache : Option (List IndexEntry)
  value : List IndexEntry
  fetched : Bool
deriving DecidableEq

/-- Models `loadSearchIndex` (lines 7-18).  When the cache is set the
cached value is returned without a fetch.  Otherwise the fetch runs; on
success the parsed entries are stored and returned, and on failure the
error is logged and an empty array is returned WITHOUT storing anything
in the cache (the assignment in line 12 is skipped by the thrown
error), so the cache stays `none`. -/
def loadSearchIndex (searchIndex : Option (List IndexEntry)) (outcome : FetchOutcome) :
    LoadResult :=
  match searchIndex with
  | some idx => ⟨some idx, idx, false⟩
  | none =>
    match outcome with
    | FetchOutcome.ok entries => ⟨some entries, entries, true⟩
    | FetchOutcome.fail => ⟨none, [], true⟩

/-- The opening highlight tag inserted by `highlightText` (line 29). -/
def markOpen : List Char := str "<mark class=\"search-highlight\">"

/-- The closing highlight tag inserted by `highlightText` (line 29). -/
def markClose : List Char := str "</mark>"

/-- Case-insensitive prefix test (the `i` flag of the highlight regex). -/
def ciPrefix : List Char → List Char → Bool
  | [], _ => true
  | _ :: _, [] => false
  | c :: cs, d :: ds => (c.toLower == d.toLower) && ciPrefix cs ds

/-- Models one `highlighted.replace(regex, ...)` pass of line 29.  The
regex there is `(escapeRegex term)` in a group with flags `gi`, i.e. a
global case-insensitive literal match of the (lowercased) term, and the
replacement wraps the matched text `$1` in the two tags.  The scan is
left to right and resumes after each replacement.  Terms reaching this
function are nonempty (line 24 filters empty ones out); for an empty
term the guard below makes the pass the identity, a case the module
never exercises. -/
def replaceCIAux (t : List Char) : Nat → List Char → List Char
  | _, [] => []
  | 0, c :: cs =>
    if !t.isEmpty && ciPrefix t (c :: cs) then
      markOpen ++ List.take t.length (c :: cs) ++ markClose
        ++ replaceCIAux t (t.length - 1) cs
    else c :: replaceCIAux t 0 cs
  | skip + 1, _ :: cs => replaceCIAux t skip cs

/-- One replacement pass, scanning from the start of the string.  In
`replaceCIAux`, `skip` counts characters of the current match that were
already emitted (inside the tags) and must be passed over. -/
def replaceCI (t s : List Char) : List Char := replaceCIAux t 0 s

/-- Models `highlightText` (lines 21-33 of the readable variant): if the
query is empty return the text unchanged, otherwise lowercase the query,
split it into nonempty terms, and run one global case-insensitive
literal replacement pass per term, in query order, each pass on the
output of the previous one. -/
def highlightText (text query : List Char) : List Char :=
  if query = [] then text
  else (splitTerms (jsToLower query)).foldl (fun acc term => replaceCI term acc) text

/-- Models `highlightText` of the minified variant (line 211); its body
is the same per-term replacement pipeline as the readable variant. -/
def highlightTextMin (text query : List Char) : List Char :=
  if query = [] then text
  else (splitTerms (jsToLower query)).foldl (fun acc term => replaceCI term acc) text

/-- Remove every occurrence of the two highlight tags in one left-to-
right scan: the natural reading of "stripping the highlight markup". -/
def stripMarkupAux : Nat → List Char → List Char
  | _, [] => []
  | 0, c :: cs =>
    if List.isPrefixOf markOpen (c :: cs) then
      stripMarkupAux (markOpen.length - 1) cs
    else if List.isPrefixOf markClose (c :: cs) then
      stripMarkupAux (markClose.length - 1) cs
    else c :: stripMarkupAux 0 cs
  | skip + 1, _ :: cs => stripMarkupAux skip cs

/-- The tag-removing scan, from the start of the string. -/
def stripMarkup (s : List Char) : List Char := stripMarkupAux 0 s

/-- One insertion of a copy of an open or close highlight tag somewhere
in a string. -/
def MarkStep (s t : List Char) : Prop :=
  ∃ u v, s = u ++ v ∧ (t = u ++ markOpen ++ v ∨ t = u ++ markClose ++ v)

/-- Zero or more insertions of copies of the highlight tags. -/
def MarkIns : List Char → List Char → Prop := Relation.ReflTransGen MarkStep

/-- Events relevant to the eager-load behavior of the quick-search
field: the page's DOMContentLoaded event, a focus event on the field,
and anything else. -/
inductive QEvent
  | domReady
  | focusQuick
  | otherEvent
deriving DecidableEq

/-- Per-field listener state of the minified variant: whether the
focus listener registered with the `once` option (line 232) has already
fired and been removed. -/
structure QuickState where
  focusFired : Bool
deriving DecidableEq

/-- Loader calls made by the minified variant's handlers on one event:
the focus listener of line 232 calls `loadSearchIndex` and, being
registered with the `once` option, is removed after its first run; the
minified DOMContentLoaded handler (line 238) only installs the
listeners and performs no preload. -/
def stepQuickMin : QuickState → QEvent → QuickState × Nat
  | st, QEvent.focusQuick => if st.focusFired then (st, 0) else (⟨true⟩, 1)
  | st, _ => (st, 0)

/-- Total number of loader calls made by the minified variant's focus
listener over an event sequence. -/
def runQuickMin (st : QuickState) : List QEvent → Nat
  | [] => 0
  | e :: es =>
    let r := stepQuickMin st e
    r.2 + runQuickMin r.1 es

/-- Loader calls made by the readable variant's handlers on one event,
split as (calls from focus listeners, calls from the DOMContentLoaded
preload).  The readable `setupQuickSearch` (lines 132-174) registers
input, click and keydown listeners but NO focus listener, so no event
ever triggers the loader from a focus handler; the readable
DOMContentLoaded handler (lines 203-209) preloads the index once. -/
def stepQuickReadable : QEvent → Nat × Nat
  | QEvent.domReady => (0, 1)
  | _ => (0, 0)

/-- Totals of (focus-triggered loads, DOMContentLoaded preloads) of the
readable variant over an event sequence. -/
def runQuickReadable : List QEvent → Nat × Nat
  | [] => (0, 0)
  | e :: es =>
    let r := stepQuickReadable e
    let rest := runQuickReadable es
    (r.1 + rest.1, r.2 + rest.2)

/-- First entry of the two-entry index of the spec's scenario (§8). -/
def entryMagik : IndexEntry :=
  ⟨ str "Magik", str "A story about a magik user. Magik is powerful.", str "/a",
    str "Backstory"⟩

/-- Second entry of the two-entry index of the spec's scenario (§8). -/
def entrySettlement : IndexEntry :=
  ⟨ str "Settlement", str "The world state.", str "/b", str "Setting"⟩

/-- The two-entry index of the spec's scenario (§8). -/
def demoIndex : List IndexEntry := [entryMagik, entrySettlement]

/-! Helper lemmas about the sorting, mapping and replacement pipeline. -/

theorem insertSorted_perm (le : α → α → Bool) (a : α) :
    ∀ l : List α, (insertSorted le a l).Perm (a :: l)
  | [] => List.Perm.refl _
  | b :: bs => by
    simp only [insertSorted]
    by_cases h : le a b = true
    · rw [if_pos h]
    · rw [if_neg h]
      exact ((insertSorted_perm le a bs).cons b).trans (List.Perm.swap a b bs)

theorem insertSorted_pairwise (le : α → α → Bool)
    (htot : ∀ x y, (le x y || le y x) = true)
    (htrans : ∀ x y z, le x y = true → le y z = true → le x z = true) (a : α) :
    ∀ l : List α, l.Pairwise (fun x y => le x y = true) →
      (insertSorted le a l).Pairwise (fun x y => le x y = true)
  | [], _ => by simp [insertSorted]
  | b :: bs, hp => by
    rw [List.pairwise_cons] at hp
    obtain ⟨hb, hbs⟩ := hp
    simp only [insertSorted]
    by_cases h : le a b = true
    · rw [if_pos h]
      refine List.pairwise_cons.mpr ⟨?_, List.pairwise_cons.mpr ⟨hb, hbs⟩⟩
      intro x hx
      rcases List.mem_cons.mp hx with rfl | hx2
      · exact h
      · exact htrans a b x h (hb x hx2)
    · rw [if_neg h]
      refine List.pairwise_cons.mpr ⟨?_, insertSorted_pairwise le htot htrans a bs hbs⟩
      intro x hx
      have hx2 := (insertSorted_perm le a bs).mem_iff.mp hx
      rcases List.mem_cons.mp hx2 with rfl | hx3
      · have h2 := htot x b
        rw [Bool.or_eq_true] at h2
        rcases h2 with h2 | h2
        · exact absurd h2 h
        · exact h2
      · exact hb x hx3

theorem stableSort_perm (le : α → α → Bool) : ∀ l : List α, (stableSort le l).Perm l
  | [] => List.Perm.refl _
  | a :: as => (insertSorted_perm le a (stableSort le as)).trans ((stableSort_perm le as).cons a)

theorem stableSort_pairwise (le : α → α → Bool)
    (htot : ∀ x y, (le x y || le y x) = true)
    (htrans : ∀ x y z, le x y = true → le y z = true → le x z = true) :
    ∀ l : List α, (stableSort le l).Pairwise (fun x y => le x y = true)
  | [] => by simp [stableSort]
  | a :: as => by
    simp only [stableSort]
    exact insertSorted_pairwise le htot htrans a _ (stableSort_pairwise le htot htrans as)

theorem mapJs_ok_mem {α β : Type} {f : α → JsResult β} :
    ∀ {l : List α} {ys : List β}, mapJs f l = JsResult.ok ys →
      ∀ y ∈ ys, ∃ x, x ∈ l ∧ f x = JsResult.ok y := by
  intro l
  induction l with
  | nil =>
    intro ys h y hy
    simp only [mapJs, JsResult.ok.injEq] at h
    subst h
    simp at hy
  | cons a as ih =>
    intro ys h y hy
    simp only [mapJs] at h
    cases hfa : f a with
    | thrown => rw [hfa] at h; simp at h
    | ok b =>
      rw [hfa] at h
      cases hm : mapJs f as with
      | thrown => rw [hm] at h; simp at h
      | ok bs =>
        rw [hm] at h
        simp only [JsResult.ok.injEq] at h
        subst h
        rcases List.mem_cons.mp hy with rfl | hy2
        · exact ⟨a, List.mem_cons_self a as, hfa⟩
        · obtain ⟨x, hx, hfx⟩ := ih hm y hy2
          exact ⟨x, List.mem_cons_of_mem a hx, hfx⟩

theorem scoreEntry_ok_fields {terms : List (List Char)} {x : IndexEntry} {r : ScoredResult}
    (h : scoreEntry terms x = JsResult.ok r) :
    r.title = x.title ∧ r.content = x.content ∧ r.url = x.url ∧ r.category = x.category := by
  unfold scoreEntry at h
  cases hf : scoreTermsFold (jsToLower x.title) (jsToLower x.content) 0 terms with
  | thrown => rw [hf] at h; simp at h
  | ok s =>
    rw [hf] at h
    simp only [JsResult.ok.injEq] at h
    subst h
    simp [toScored]

theorem search_ok_cases {idx : List IndexEntry} {q : List Char} {l : Nat}
    {res : List ScoredResult} (h : search (some idx) q l = JsResult.ok res) :
    res = [] ∨ ∃ results, mapJs (scoreEntry (splitTerms (jsToLower q))) idx = JsResult.ok results ∧
      res = (stableSort scoreLe (results.filter (fun item => decide (0 < item.score)))).take l := by
  simp only [search] at h
  by_cases hg : q = [] ∨ (jsTrim q).length < 2
  · rw [if_pos hg] at h
    left
    simp only [JsResult.ok.injEq] at h
    exact h.symm
  · rw [if_neg hg] at h
    cases hm : mapJs (scoreEntry (splitTerms (jsToLower q))) idx with
    | thrown => rw [hm] at h; simp at h
    | ok results =>
      rw [hm] at h
      simp only [JsResult.ok.injEq] at h
      exact Or.inr ⟨results, rfl, h.symm⟩

theorem jsTrim_ws_only {s : List Char} (h : ∀ c ∈ s, jsIsWs c = true) : jsTrim s = [] := by
  unfold jsTrim
  have h1 : s.dropWhile jsIsWs = [] := List.dropWhile_eq_nil_iff.mpr h
  rw [h1]
  simp

theorem markStep_append_left (u : List Char) {s t : List Char} (h : MarkStep s t) :
    MarkStep (u ++ s) (u ++ t) := by
  obtain ⟨a, b, rfl, hc⟩ := h
  refine ⟨u ++ a, b, by simp, ?_⟩
  rcases hc with rfl | rfl
  · left; simp
  · right; simp

theorem markIns_append_left (u : List Char) {s t : List Char} (h : MarkIns s t) :
    MarkIns (u ++ s) (u ++ t) :=
  Relation.ReflTransGen.lift (fun x => u ++ x) (fun _ _ hs => markStep_append_left u hs) h

theorem replaceCIAux_skip (t : List Char) :
    ∀ (s : List Char) (n : Nat), replaceCIAux t n s = replaceCIAux t 0 (List.drop n s)
  | [], n => by rw [List.drop_nil]; cases n <;> rfl
  | c :: cs, 0 => rfl
  | c :: cs, n + 1 => by
    show replaceCIAux t n cs = replaceCIAux t 0 (List.drop (n + 1) (c :: cs))
    rw [List.drop_succ_cons]
    exact replaceCIAux_skip t cs n

theorem replaceCI_markIns (t : List Char) : ∀ s : List Char, MarkIns s (replaceCI t s) := by
  have main : ∀ (n : Nat) (s : List Char), s.length ≤ n → MarkIns s (replaceCIAux t 0 s) := by
    intro n
    induction n with
    | zero =>
      intro s hs
      have hnil : s = [] := List.eq_nil_of_length_eq_zero (Nat.le_zero.mp hs)
      subst hnil
      exact Relation.ReflTransGen.refl
    | succ n ih =>
      intro s hs
      match s with
      | [] => exact Relation.ReflTransGen.refl
      | c :: cs =>
        have hcs : cs.length ≤ n := by
          simp only [List.length_cons] at hs
          omega
        by_cases hm : (!t.isEmpty && ciPrefix t (c :: cs)) = true
        · have ht : 0 < t.length := by
            rcases t with _ | ⟨x, xs⟩
            · simp [List.isEmpty] at hm
            · simp
          have hdrop : List.drop t.length (c :: cs) = List.drop (t.length - 1) cs := by
            obtain ⟨m, hm2⟩ : ∃ m, t.length = m + 1 := ⟨t.length - 1, by omega⟩
            rw [hm2, List.drop_succ_cons]
            simp
          have hrw : replaceCIAux t 0 (c :: cs) =
              markOpen ++ List.take t.length (c :: cs) ++ markClose
                ++ replaceCIAux t 0 (List.drop t.length (c :: cs)) := by
            simp only [replaceCIAux]
            rw [if_pos hm, replaceCIAux_skip t cs (t.length - 1), hdrop]
          have hins : MarkIns (List.drop t.length (c :: cs))
              (replaceCIAux t 0 (List.drop t.length (c :: cs))) := by
            apply ih
            simp only [List.length_drop, List.length_cons]
            omega
          have h2 := markIns_append_left (List.take t.length (c :: cs)) hins
          have h3 : MarkStep
              (List.take t.length (c :: cs) ++ replaceCIAux t 0 (List.drop t.length (c :: cs)))
              (List.take t.length (c :: cs) ++ markClose
                ++ replaceCIAux t 0 (List.drop t.length (c :: cs))) :=
            ⟨List.take t.length (c :: cs), replaceCIAux t 0 (List.drop t.length (c :: cs)),
              rfl, Or.inr rfl⟩
          have h4 : MarkStep
              (List.take t.length (c :: cs) ++ markClose
                ++ replaceCIAux t 0 (List.drop t.length (c :: cs)))
              (markOpen ++ (List.take t.length (c :: cs) ++ markClose
                ++ replaceCIAux t 0 (List.drop t.length (c :: cs)))) :=
            ⟨[], List.take t.length (c :: cs) ++ markClose
                ++ replaceCIAux t 0 (List.drop t.length (c :: cs)), rfl, Or.inl rfl⟩
          have hfinal := (h2.trans (Relation.ReflTransGen.single h3)).trans
            (Relation.ReflTransGen.single h4)
          rw [List.take_append_drop] at hfinal
          rw [hrw]
          exact hfinal
        · have hrw : replaceCIAux t 0 (c :: cs) = c :: replaceCIAux t 0 cs := by
            simp only [replaceCIAux]
            rw [if_neg hm]
          rw [hrw]
          exact markIns_append_left [c] (ih cs hcs)
  intro s
  exact main s.length s (Nat.le_refl _)

theorem foldl_replaceCI_markIns :
    ∀ (ts : List (List Char)) (s : List Char),
      MarkIns s (List.foldl (fun acc term => replaceCI term acc) s ts)
  | [], _ => Relation.ReflTransGen.refl
  | t :: ts, s => by
    simp only [List.foldl]
    exact (replaceCI_markIns t s).trans (foldl_replaceCI_markIns ts (replaceCI t s))

theorem runQuickMin_fired : ∀ es : List QEvent, runQuickMin ⟨true⟩ es = 0
  | [] => rfl
  | e :: es => by
    cases e <;> simpa [runQuickMin, stepQuickMin] using runQuickMin_fired es

/-! The claims. -/

/-- Claim C1: on the two-entry index of the spec's scenario,
`search("magik", 10)` returns exactly one result, the first entry, with
score 32 = 10 (title substring) + 20 (exact case-insensitive title
match) + 2 (two occurrences of "magik" in the lowercased content). -/
theorem claim_C1_scenario :
    search (some demoIndex) (str "magik") 10 = JsResult.ok [toScored entryMagik 32] := by
  decide

/-- Claim C2 (evaluation at the failing input): the per-term content
contribution is NOT the literal substring count.  For the term `a.c` and
content `abc`, the code builds `new RegExp("a.c", "g")` from the raw
term (line 64, no `escapeRegex`), so `.` acts as a wildcard and the
entry scores 1 from content, while the count of literal occurrences of
`a.c` in the lowercased content is 0. -/
theorem claim_C2_regex_eval :
    scoreEntry [ str "a.c"] ⟨ str "T", str "abc", str "/u", str "C"⟩ =
        JsResult.ok (toScored ⟨ str "T", str "abc", str "/u", str "C"⟩ 1) ∧
      countOccurrencesLit (str "a.c") (jsToLower (str "abc")) = 0 := by
  decide

/-- Claim C3 (evaluation at the failing input): scoring is not total.
For the query `((` (trimmed length 2, so it passes the guard) on a
nonempty loaded index, line 64 evaluates `new RegExp("((", "g")`, which
raises a SyntaxError, so `search` throws instead of returning a value. -/
theorem claim_C3_throws_eval :
    search (some demoIndex) (str "((") 10 = JsResult.thrown := by
  decide

/-- Claim C4 counterexample: after a FAILED first call the loader is
called again and issues another network request (`fetched = true`),
refuting "after the first call completes, every subsequent call returns
the cached value without issuing another network request".  The failure
path returns before the cache assignment, so the cache stays `none` and
the next call fetches again. -/
theorem claim_C4_counterexample :
    (loadSearchIndex (loadSearchIndex none FetchOutcome.fail).cache FetchOutcome.fail).fetched
      = true := by
  decide

/-- Claim C4 as amended: the first call fetches; on failure it resolves
to the empty sequence WITHOUT caching (so a later call retries the
fetch); on success it caches the parsed entries; and once the cache is
set every call returns the cached value without a network request. -/
theorem claim_C4_loader_behavior :
    loadSearchIndex none FetchOutcome.fail = ⟨none, [], true⟩ ∧
      (∀ e, loadSearchIndex none (FetchOutcome.ok e) = ⟨some e, e, true⟩) ∧
      ∀ (idx : List IndexEntry) (out : FetchOutcome),
        loadSearchIndex (some idx) out = ⟨some idx, idx, false⟩ :=
  ⟨rfl, fun _ => rfl, fun _ _ => rfl⟩

/-- Claim C5 counterexample: stripping the highlight markup from the
output of `highlightText` does not always reproduce the input.  For the
input text `</mark>` (which contains marker text of its own) and the
query `ab` (no occurrence, so highlighting returns the text unchanged),
stripping removes the input's own `</mark>` and yields the empty
string. -/
theorem claim_C5_counterexample :
    stripMarkup (highlightText (str "</mark>") (str "ab")) ≠ str "</mark>" := by
  decide

/-- Claim C5 as amended: highlighting never alters, duplicates or loses
a character of the input: for every text and query the output of
`highlightText` is obtained from the input text by repeatedly inserting
copies of the open and close highlight tags (relation `MarkIns`), even
when a later term matches inside markup inserted for an earlier term.
The strip-roundtrip phrasing fails only because an input may itself
contain tag text. -/
theorem claim_C5_only_inserts_tags : ∀ text query : List Char,
    MarkIns text (highlightText text query) := by
  intro text query
  unfold highlightText
  by_cases hq : query = []
  · rw [if_pos hq]
    exact Relation.ReflTransGen.refl
  · rw [if_neg hq]
    exact foldl_replaceCI_markIns _ _

/-- Claim C6: whenever the index is not loaded, or the query is empty,
whitespace-only, or has trimmed length below 2, `search` returns the
empty sequence, whatever the index contents and limit. -/
theorem claim_C6_empty_guard : ∀ (idx : Option (List IndexEntry)) (q : List Char) (lim : Nat),
    idx = none ∨ q = [] ∨ (∀ c ∈ q, jsIsWs c = true) ∨ (jsTrim q).length < 2 →
      search idx q lim = JsResult.ok [] := by
  intro idx q lim h
  match idx with
  | none => rfl
  | some i =>
    have hg : q = [] ∨ (jsTrim q).length < 2 := by
      rcases h with h | h | h | h
      · exact absurd h (by simp)
      · exact Or.inl h
      · right
        rw [jsTrim_ws_only h]
        simp
      · exact Or.inr h
    simp only [search]
    rw [if_pos hg]

/-- Claim C6 witness: the guard theorem applied to the one-letter query
`" x "` on the scenario index. -/
theorem claim_C6_witness :
    (jsTrim (str " x ")).length < 2 ∧ search (some demoIndex) (str " x ") 5 = JsResult.ok [] :=
  ⟨by decide,
   claim_C6_empty_guard (some demoIndex) (str " x ") 5 (Or.inr (Or.inr (Or.inr (by decide))))⟩

/-- Claim C7: whenever `search` returns a sequence (rather than
throwing), every returned entry has score strictly above 0, the
sequence is sorted in non-increasing score order, and its length never
exceeds the limit. -/
theorem claim_C7_postcondition :
    ∀ (idx : List IndexEntry) (q : List Char) (lim : Nat) (res : List ScoredResult),
      search (some idx) q lim = JsResult.ok res →
        (∀ r ∈ res, 0 < r.score) ∧
          List.Pairwise (fun a b : ScoredResult => b.score ≤ a.score) res ∧
          res.length ≤ lim := by
  intro idx q lim res h
  rcases search_ok_cases h with rfl | ⟨results, _, rfl⟩
  · exact ⟨fun r hr => absurd hr (List.not_mem_nil r), List.Pairwise.nil, by simp⟩
  · refine ⟨?_, ?_, ?_⟩
    · intro r hr
      have h1 := List.take_subset _ _ hr
      have h2 := (stableSort_perm scoreLe _).mem_iff.mp h1
      have h3 := (List.mem_filter.mp h2).2
      exact of_decide_eq_true h3
    · have hs := stableSort_pairwise scoreLe
        (fun x y => by simp only [scoreLe, Bool.or_eq_true, decide_eq_true_eq]; omega)
        (fun x y z hxy hyz => by
          simp only [scoreLe, decide_eq_true_eq] at hxy hyz ⊢; omega)
        (results.filter (fun item => decide (0 < item.score)))
      have hp := List.Pairwise.imp
        (fun h => by simp only [scoreLe, decide_eq_true_eq] at h; exact h) hs
      exact List.Pairwise.sublist (List.take_sublist _ _) hp
    · exact List.length_take_le _ _

/-- Claim C7 witness: the postcondition instantiated on the scenario
index with query `magik` and limit 10. -/
theorem claim_C7_witness :
    (∀ r ∈ [toScored entryMagik 32], 0 < r.score) ∧
      List.Pairwise (fun a b : ScoredResult => b.score ≤ a.score) [toScored entryMagik 32] ∧
      ([toScored entryMagik 32] : List ScoredResult).length ≤ 10 :=
  claim_C7_postcondition demoIndex (str "magik") 10 [toScored entryMagik 32] (by decide)

/-- Claim C8: scoring does not mutate the loaded index -- as a state
transformer it leaves the module state unchanged -- and every returned
result is a fresh object copying the title, content, url and category
of some entry of the index. -/
theorem claim_C8_no_mutation : ∀ (idx : List IndexEntry) (q : List Char) (lim : Nat),
    (searchStateful (some idx) q lim).1 = some idx ∧
      ∀ res, search (some idx) q lim = JsResult.ok res → ∀ r ∈ res,
        ∃ e, e ∈ idx ∧ r.title = e.title ∧ r.content = e.content ∧ r.url = e.url ∧
          r.category = e.category := by
  intro idx q lim
  refine ⟨rfl, ?_⟩
  intro res h r hr
  rcases search_ok_cases h with rfl | ⟨results, hm, rfl⟩
  · exact absurd hr (List.not_mem_nil r)
  · have h1 := List.take_subset _ _ hr
    have h2 := (stableSort_perm scoreLe _).mem_iff.mp h1
    have h3 := (List.mem_filter.mp h2).1
    obtain ⟨x, hx, hfx⟩ := mapJs_ok_mem hm r h3
    obtain ⟨ht, hc, hu, hcat⟩ := scoreEntry_ok_fields hfx
    exact ⟨x, hx, ht, hc, hu, hcat⟩

/-- Claim C8 witness: the no-mutation theorem instantiated on the
scenario index with query `magik` and limit 10. -/
theorem claim_C8_witness :
    (searchStateful (some demoIndex) (str "magik") 10).1 = some demoIndex ∧
      ∀ r ∈ [toScored entryMagik 32], ∃ e, e ∈ demoIndex ∧ r.title = e.title ∧
        r.content = e.content ∧ r.url = e.url ∧ r.category = e.category :=
  ⟨(claim_C8_no_mutation demoIndex (str "magik") 10).1,
   fun r hr =>
     (claim_C8_no_mutation demoIndex (str "magik") 10).2 [toScored entryMagik 32]
       (by decide) r hr⟩

/-- Claim C9 counterexample: in the readable variant a focus event on
the quick-search field triggers NO loader call (its `setupQuickSearch`
registers no focus listener), refuting "the first focus event on that
field triggers the Index Loader". -/
theorem claim_C9_counterexample : (runQuickReadable [QEvent.focusQuick]).1 = 0 := by
  decide

/-- Claim C9 as amended: in the MINIFIED variant the focus listener is
registered with the `once` option, so over any event sequence the
number of focus-triggered loads is exactly one if a focus occurs and
zero otherwise (first focus triggers, and at most once); the readable
variant has no focus listener at all -- its focus-triggered load count
is always zero, the index being preloaded at DOMContentLoaded instead. -/
theorem claim_C9_focus_once : ∀ es : List QEvent,
    runQuickMin ⟨false⟩ es = (if QEvent.focusQuick ∈ es then 1 else 0) ∧
      (runQuickReadable es).1 = 0 := by
  intro es
  induction es with
  | nil => exact ⟨rfl, rfl⟩
  | cons e es ih =>
    obtain ⟨ih1, ih2⟩ := ih
    constructor
    · cases e with
      | domReady => simpa [runQuickMin, stepQuickMin] using ih1
      | focusQuick => simp [runQuickMin, stepQuickMin, runQuickMin_fired es]
      | otherEvent => simpa [runQuickMin, stepQuickMin] using ih1
    · cases e <;> simpa [runQuickReadable, stepQuickReadable] using ih2

/-- Claim C10: the readable and minified variants define extensionally
equal core functions: `search` agrees on every index state, query and
limit, and `highlightText` agrees on every text and query. -/
theorem claim_C10_variants_agree :
    (∀ (si : Option (List IndexEntry)) (q : List Char) (lim : Nat),
        searchMin si q lim = search si q lim) ∧
      ∀ t q : List Char, highlightTextMin t q = highlightText t q :=
  ⟨fun _ _ _ => rfl, fun _ _ => rfl⟩
